import Mathlib

/-!
Verification of the data-lake HTTP proxy (src/app.py) against its
natural-language specification.

The Python module is a thin read-only proxy over a remote document-storage
API.  We embed its pure logic shallowly: the remote drive is a finite tree
of items, each remote HTTP endpoint the code calls is a function returning
`Except Nat _` (where `.error s` models `HTTPException` carrying status `s`),
and every request handler becomes a Lean function over those parameters.
-/

set_option autoImplicit false

namespace DataLake

/-- Parsed JSON payloads are opaque to the proxy (it only passes them
through), so a parsed document is modelled by an opaque carrier type. -/
abbrev Json := String

/-- One node of the remote drive, as stored by the remote document-storage
service that src/app.py queries through `graph_get`.  A folder's child
listing may be paginated by the remote: `served` is the first page (the
`value` array of the plain `/children` response) and `unserved` holds the
children on later pages, reachable only by following the continuation link
of the response.  The full child set of a folder is `served ++ unserved`;
an unpaginated remote has `unserved = []` everywhere. -/
inductive RTree where
  | file (id name : String) (size : Nat) (mimeType downloadUrl : Option String)
  | folder (id name : String) (served unserved : List RTree)

/-- Remote identifier of a node (the `id` field of the Graph item). -/
def RTree.id : RTree → String
  | .file i _ _ _ _ => i
  | .folder i _ _ _ => i

/-- Name of a node (the `name` field of the Graph item). -/
def RTree.name : RTree → String
  | .file _ n _ _ _ => n
  | .folder _ n _ _ => n

/-- The value of `item.get("@microsoft.graph.downloadUrl")` on the JSON of a
node: files may carry a short-lived download URL, folders never do. -/
def RTree.durl : RTree → Option String
  | .file _ _ _ _ d => d
  | .folder _ _ _ _ => none

/-- One element of the listing built by `fetch_all_items` (src/app.py
77-97): the folder dict or the file dict appended to `all_items`. -/
inductive Item where
  | folder (name path id : String)
  | file (name path : String) (mimeType : Option String) (size_mb : ℚ)
      (downloadUrl : Option String) (id : String)
deriving DecidableEq

/-- The `id` field of an emitted dict. -/
def Item.id : Item → String
  | .folder _ _ i => i
  | .file _ _ _ _ _ i => i

/-- The `path` field of an emitted dict. -/
def Item.path : Item → String
  | .folder _ p _ => p
  | .file _ p _ _ _ _ => p

/-- The `name` field of an emitted dict. -/
def Item.name : Item → String
  | .folder n _ _ => n
  | .file n _ _ _ _ _ => n

/-- Python `s.lstrip("/")`: remove every leading slash. -/
def lstripSlash (s : String) : String :=
  ⟨s.data.dropWhile (fun c => c = '/')⟩

/-- The path computation of src/app.py line 78:
`current_path = f"{path}/{item['name']}".lstrip("/")`. -/
def pathJoin (path name : String) : String :=
  lstripSlash (path ++ "/" ++ name)

/-- Round `n / d` to the nearest integer, ties to the even neighbour
(requires `0 < d`).  This is the rounding of Python `round` on an exactly
representable nonnegative quotient. -/
def roundHalfEven (n d : Nat) : Nat :=
  let q := n / d
  let r := n % d
  if 2 * r < d then q
  else if 2 * r > d then q + 1
  else if q % 2 = 0 then q else q + 1

/-- The size computation of src/app.py line 94:
`round(item.get("size", 0) / (1024 * 1024), 2)`, i.e. the byte count
converted to megabytes and rounded to two decimal places.  We compute the
exact rational value; Python rounds the nearest double instead, which
agrees on every input whose conversion is exactly representable. -/
def size_mb (size : Nat) : ℚ :=
  (roundHalfEven (size * 100) (1024 * 1024) : ℚ) / 100

mutual
/-- Embeds `fetch_all_items` (src/app.py 68-98).  The Python function issues
one request `GET /drives/{id}/{folder_id}/children` and iterates over
`data.get("value", [])` of the single response; under a coherent remote that
response carries the first page of the children of `folder_id`, which the
embedding receives directly as `page`.  `path` is the `path` argument of the
Python function. -/
def fetch_all_items (path : String) (page : List RTree) : List Item :=
  match page with
  | [] => []
  | item :: rest => emitChild path item ++ fetch_all_items path rest

/-- One iteration of the `for item in data.get("value", [])` loop of
`fetch_all_items`: for a folder, append the folder dict and extend with the
recursive walk (the recursive call fetches `items/{id}/children`, i.e. the
first page `sv` of that folder); otherwise append the file dict. -/
def emitChild (path : String) (item : RTree) : List Item :=
  match item with
  | .folder id name sv _ =>
      Item.folder name (pathJoin path name) id ::
        fetch_all_items (pathJoin path name) sv
  | .file id name size mime durl =>
      [Item.file name (pathJoin path name) mime (size_mb size) durl id]
end

/-- The dict that the loop body of `fetch_all_items` appends for the node
`t` itself when the computed current path is `p`. -/
def emitted (p : String) : RTree → Item
  | .folder i n _ _ => .folder n p i
  | .file i n s m d => .file n p m (size_mb s) d i

/-- Split a character list at every slash; the result never is empty and
joining it back with slashes gives the input. -/
def splitSlashes (cs : List Char) : List (List Char) :=
  cs.foldr
    (fun c acc =>
      if c = '/' then [] :: acc
      else
        match acc with
        | [] => [[c]]
        | s :: rest => (c :: s) :: rest)
    [[]]

/-- Segments of a slash-delimited path string. -/
def splitPath (p : String) : List String :=
  (splitSlashes p.data).map String.mk

/-- Modelled environment (Microsoft Graph path addressing, spec section 6):
`GET .../root:/{p}` resolves the slash-delimited path `p` by descending from
the drive root, matching one child name per segment; pagination does not
affect resolution, so a folder is searched across its full child set. -/
def resolveSegs : List RTree → List String → Option RTree
  | _, [] => none
  | ts, [seg] => ts.find? (fun t => t.name == seg)
  | ts, seg :: rest =>
    match ts.find? (fun t => t.name == seg) with
    | some (.folder _ _ sv uv) => resolveSegs (sv ++ uv) rest
    | _ => none

/-- The remote drive: the root folder's first page of children and the
children of the root on later pages. -/
structure Drive where
  served : List RTree
  unserved : List RTree

/-- Full child set of the drive root. -/
def Drive.children (d : Drive) : List RTree := d.served ++ d.unserved

/-- Modelled environment: the healthy remote path-addressing endpoint over
the drive `d`, answering 404 for an unresolvable path (this is the status
`graph_get` turns into an `HTTPException`). -/
def pathEpOf (d : Drive) : String → Except Nat RTree := fun sp =>
  match resolveSegs d.children (splitPath sp) with
  | some t => .ok t
  | none => .error 404

/-- Embeds `get_item_by_path` (src/app.py 100-108): strip leading slashes
from `path`, then issue `GET /drives/{id}/root:/{safe_path}` against the
remote path-addressing endpoint `ep`; an error status from `graph_get`
surfaces as `HTTPException` with that status, modelled by `.error`. -/
def get_item_by_path (ep : String → Except Nat RTree) (path : String) :
    Except Nat RTree :=
  ep (lstripSlash path)

/-- Embeds the `/list-files` handler `list_files` (src/app.py 117-141).
FastAPI hands `folder` over as `None` or a string and `if not folder:`
treats `None` and the empty string alike.  Any `HTTPException` from the
resolution step is replaced by a 404; a resolved item with a `file` facet
and no `folder` facet is a 400; otherwise the walk restarts from
`items/{id}/children` of the resolved folder, which under a coherent remote
is that folder node's first page `sv`, with the raw `folder` string as base
path. -/
def list_files (d : Drive) (ep : String → Except Nat RTree)
    (folder : Option String) : Except Nat (Nat × List Item) :=
  let f := folder.getD ""
  if f = "" then
    let items := fetch_all_items "" d.served
    .ok (items.length, items)
  else
    match get_item_by_path ep f with
    | .error _ => .error 404
    | .ok (.file _ _ _ _ _) => .error 400
    | .ok (.folder _ _ sv _) =>
      let items := fetch_all_items f sv
      .ok (items.length, items)

/-- Embeds the `/download` handler (src/app.py 187-212).  `idEp` models
`GET /drives/{id}/items/{item_id}`; the remote may include the short-lived
download URL in one response and omit it in another, so the by-path and the
by-id views are independent parameters.  Python `if not item_id` is true
for an empty id.  `HTTPException` values pass through the final
`except HTTPException: raise`. -/
def download (ep : String → Except Nat RTree) (idEp : String → Except Nat RTree)
    (file_path : String) : Except Nat (String × String) :=
  match get_item_by_path ep file_path with
  | .error s => .error s
  | .ok item =>
    match item.durl with
    | some u => .ok (file_path, u)
    | none =>
      if item.id = "" then .error 404
      else
        match idEp item.id with
        | .error s => .error s
        | .ok item2 =>
          match item2.durl with
          | some u => .ok (file_path, u)
          | none => .error 404

/-- One raw hit of the remote search response, as read by src/app.py: every
field is accessed with `.get`, except that the `/metadata` handler reads
`hits[0]["id"]` with brackets.  `folder` is the truthiness of the folder
facet. -/
structure SearchHit where
  id : Option String
  name : Option String
  parentPath : Option String
  folder : Bool
  downloadUrl : Option String

/-- One element of the `results` list built by the `/search` handler
(src/app.py 222-230). -/
structure SearchResult where
  id : Option String
  name : Option String
  path : Option String
  type : String
  downloadUrl : Option String
deriving DecidableEq

/-- The loop body of the `/search` handler: the lightweight projection of
one raw hit. -/
def toSearchResult (it : SearchHit) : SearchResult :=
  { id := it.id
    name := it.name
    path := it.parentPath
    type := if it.folder then "folder" else "file"
    downloadUrl := it.downloadUrl }

/-- Embeds the `/search` handler (src/app.py 214-231): forward the query to
the remote search endpoint, project every hit, and answer with the length
of the projected list and the list itself.  An error from `graph_get`
propagates with its own status (there is no handler around it). -/
def search (searchEp : String → Except Nat (List SearchHit)) (q : String) :
    Except Nat (Nat × List SearchResult) :=
  match searchEp q with
  | .error s => .error s
  | .ok hits =>
    let results := hits.map toSearchResult
    .ok (results.length, results)

/-- Embeds the `/metadata` handler (src/app.py 143-185).  `searchRes` is the
response to the fixed search for metadata.json, `idEp` the by-id item fetch,
and `contentEp` the unauthenticated GET of a download URL: `.error ()` is a
requests-level failure (`raise_for_status` or decoding), `.ok none` a body
that `json.loads` rejects, `.ok (some j)` a parsed document.  Exception
flow of the surrounding `try`: an `HTTPException` is re-raised unchanged,
any other exception becomes a 500.  In the `file_path` branch the parse
failure is caught by `except json.JSONDecodeError` and turned into a 400;
in the search branch `json.loads` runs unguarded, so the same failure falls
into the generic handler and becomes a 500. -/
def metadata (ep : String → Except Nat RTree) (idEp : String → Except Nat RTree)
    (searchRes : Except Nat (List SearchHit))
    (contentEp : String → Except Unit (Option Json))
    (file_path : Option String) : Except Nat (String × Json) :=
  let fp := file_path.getD ""
  if fp = "" then
    match searchRes with
    | .error s => .error s
    | .ok [] => .error 404
    | .ok (h0 :: _) =>
      match h0.id with
      | none => .error 500
      | some fid =>
        match idEp fid with
        | .error s => .error s
        | .ok item =>
          match item.durl with
          | none => .error 404
          | some url =>
            match contentEp url with
            | .error _ => .error 500
            | .ok none => .error 500
            | .ok (some parsed) => .ok (h0.parentPath.getD "", parsed)
  else
    match get_item_by_path ep fp with
    | .error s => .error s
    | .ok item =>
      match item.durl with
      | none => .error 404
      | some url =>
        match contentEp url with
        | .error _ => .error 500
        | .ok none => .error 400
        | .ok (some parsed) => .ok (fp, parsed)

/-- Discriminator: does the remote item carry a `file` facet (and hence no
`folder` facet)? -/
def RTree.isFile : RTree → Bool
  | .file _ _ _ _ _ => true
  | .folder _ _ _ _ => false

/-- First page of children, as served by a bare `/children` request; a file
has none. -/
def RTree.page1 : RTree → List RTree
  | .file _ _ _ _ _ => []
  | .folder _ _ sv _ => sv

/-- Full child set of a node across all pages. -/
def RTree.childSet : RTree → List RTree
  | .file _ _ _ _ _ => []
  | .folder _ _ sv uv => sv ++ uv

/-- A name is good when it is nonempty and does not begin with a slash, so
that `lstrip` in the path computation never eats into it. -/
def goodName (s : String) : Bool :=
  !s.data.isEmpty && s.data.head? != some '/'

/-- A string that does not begin with a slash (it may be empty). -/
def noLeadSlash (s : String) : Bool :=
  s.data.head? != some '/'

/-- A name usable in slash-delimited path addressing: nonempty and without
any slash. -/
def slashFree (s : String) : Bool :=
  !s.data.isEmpty && !s.data.contains '/'

/-- The sibling names in a child list are pairwise distinct. -/
def nodupNames (ts : List RTree) : Bool :=
  decide ((ts.map RTree.name).Nodup)

mutual
/-- Every name in the tree is a good name. -/
def goodTree : RTree → Bool
  | .file _ n _ _ _ => goodName n
  | .folder _ n sv uv => goodName n && goodForest sv && goodForest uv

/-- Every name in the forest is a good name. -/
def goodForest : List RTree → Bool
  | [] => true
  | t :: ts => goodTree t && goodForest ts
end

mutual
/-- Every name in the tree is slash free and the sibling names of every
child list are pairwise distinct, so that path addressing is injective. -/
def resolvableTree : RTree → Bool
  | .file _ n _ _ _ => slashFree n
  | .folder _ n sv uv =>
      slashFree n && nodupNames (sv ++ uv) && resolvableForest sv && resolvableForest uv

/-- Every tree of the forest is resolvable. -/
def resolvableForest : List RTree → Bool
  | [] => true
  | t :: ts => resolvableTree t && resolvableForest ts
end

mutual
/-- The remote serves every child list of the tree in a single page. -/
def unpagedTree : RTree → Bool
  | .file _ _ _ _ _ => true
  | .folder _ _ sv uv => uv.isEmpty && unpagedForest sv

/-- The remote serves every child list of the forest in a single page. -/
def unpagedForest : List RTree → Bool
  | [] => true
  | t :: ts => unpagedTree t && unpagedForest ts
end

/-- The remote serves the whole drive without pagination. -/
def unpagedDrive (d : Drive) : Bool :=
  d.unserved.isEmpty && unpagedForest d.served

mutual
/-- The tree consists of folder nodes only. -/
def foldersOnlyTree : RTree → Bool
  | .file _ _ _ _ _ => false
  | .folder _ _ sv uv => foldersOnlyForest sv && foldersOnlyForest uv

/-- The forest consists of folder nodes only. -/
def foldersOnlyForest : List RTree → Bool
  | [] => true
  | t :: ts => foldersOnlyTree t && foldersOnlyForest ts
end

/-- Slash join of a list of path segments, the way the specification reads
a materialized path: the join of `[]` is the empty base path. -/
def joinSegs : List String → String
  | [] => ""
  | [s] => s
  | s :: ss => s ++ "/" ++ joinSegs ss

/-- The node `t` occurs in the forest `ts` below the ancestor names `anc`
(outermost first, the names of the folders between the top of the forest
and the parent of `t`).  Children on any page count. -/
inductive At : List RTree → List String → RTree → Prop where
  | here {ts : List RTree} {t : RTree} : t ∈ ts → At ts [] t
  | deeper {ts : List RTree} {i n : String} {sv uv : List RTree}
      {anc : List String} {t : RTree} :
      RTree.folder i n sv uv ∈ ts → At (sv ++ uv) anc t → At ts (n :: anc) t

theorem At.mono {ts ts2 : List RTree} {anc : List String} {t : RTree}
    (hsub : ts ⊆ ts2) (h : At ts anc t) : At ts2 anc t := by
  cases h with
  | here hm => exact At.here (hsub hm)
  | deeper hm hAt => exact At.deeper (hsub hm) hAt

theorem string_ext {a b : String} (h : a.data = b.data) : a = b := by
  cases a; cases b; exact congrArg String.mk h

theorem lstripSlash_data (s : String) :
    (lstripSlash s).data = s.data.dropWhile (fun c => c = '/') := rfl

theorem pathJoin_data (p n : String) :
    (pathJoin p n).data = (p.data ++ '/' :: n.data).dropWhile (fun c => c = '/') := by
  simp [pathJoin, lstripSlash, String.data_append]

theorem goodName_data {s : String} (h : goodName s = true) :
    ∃ c cs, s.data = c :: cs ∧ c ≠ '/' := by
  unfold goodName at h
  cases hd : s.data with
  | nil => rw [hd] at h; simp at h
  | cons c cs =>
    rw [hd] at h
    simp at h
    exact ⟨c, cs, rfl, by simpa using h⟩

theorem noLeadSlash_head {s : String} (h : noLeadSlash s = true) :
    ∀ c cs, s.data = c :: cs → c ≠ '/' := by
  intro c cs hd
  unfold noLeadSlash at h
  rw [hd] at h
  simpa using h

theorem lstripSlash_noop {s : String} (h : noLeadSlash s = true) :
    lstripSlash s = s := by
  apply string_ext
  rw [lstripSlash_data]
  cases hd : s.data with
  | nil => simp
  | cons c cs => simp [List.dropWhile_cons, noLeadSlash_head h c cs hd]

theorem pathJoin_empty {n : String} (h : goodName n = true) :
    pathJoin "" n = n := by
  obtain ⟨c, cs, hd, hc⟩ := goodName_data h
  apply string_ext
  rw [pathJoin_data, show ("" : String).data = [] from rfl, List.nil_append, hd]
  simp [List.dropWhile_cons, hc]

theorem pathJoin_of_noLead {p n : String} (hp : noLeadSlash p = true)
    (hne : p ≠ "") : pathJoin p n = p ++ "/" ++ n := by
  apply string_ext
  rw [pathJoin_data, String.data_append, String.data_append]
  cases hd : p.data with
  | nil => exact absurd (string_ext (b := "") hd) hne
  | cons c cs =>
    have hc := noLeadSlash_head hp c cs hd
    simp [List.dropWhile_cons, hc, List.append_assoc]

theorem joinSegs_cons_cons (s s2 : String) (ss : List String) :
    joinSegs (s :: s2 :: ss) = s ++ "/" ++ joinSegs (s2 :: ss) := rfl

theorem joinSegs_append_single {as : List String} (n : String) (h : as ≠ []) :
    joinSegs (as ++ [n]) = joinSegs as ++ "/" ++ n := by
  induction as with
  | nil => exact absurd rfl h
  | cons a as ih =>
    cases as with
    | nil => rfl
    | cons b bs =>
      have ih2 := ih (by simp)
      simp only [List.cons_append] at ih2 ⊢
      rw [joinSegs_cons_cons, joinSegs_cons_cons, ih2]
      simp [String.append_assoc]

theorem goodName_ne_empty {s : String} (h : goodName s = true) : s ≠ "" := by
  obtain ⟨c, cs, hd, _⟩ := goodName_data h
  intro he
  subst he
  have h2 : ([] : List Char) = c :: cs := hd
  simp at h2

theorem noLeadSlash_of_good {s : String} (h : goodName s = true) :
    noLeadSlash s = true := by
  unfold goodName at h
  unfold noLeadSlash
  rw [Bool.and_eq_true] at h
  exact h.2

theorem noLeadSlash_append (a b : String) (ha : noLeadSlash a = true)
    (hne : a ≠ "") : noLeadSlash (a ++ b) = true := by
  unfold noLeadSlash
  rw [String.data_append]
  cases hd : a.data with
  | nil => exact absurd (string_ext (b := "") hd) hne
  | cons c cs => simp [noLeadSlash_head ha c cs hd]

theorem joinSegs_noLead {as : List String} (h : ∀ s ∈ as, goodName s = true) :
    noLeadSlash (joinSegs as) = true := by
  cases as with
  | nil => rfl
  | cons a as =>
    have ha : goodName a = true := h a (by simp)
    cases as with
    | nil => exact noLeadSlash_of_good ha
    | cons b bs =>
      rw [joinSegs_cons_cons]
      rw [String.append_assoc]
      exact noLeadSlash_append _ _ (noLeadSlash_of_good ha) (goodName_ne_empty ha)

theorem joinSegs_ne_empty {as : List String} (h : ∀ s ∈ as, goodName s = true)
    (hne : as ≠ []) : joinSegs as ≠ "" := by
  cases as with
  | nil => exact absurd rfl hne
  | cons a as =>
    have ha : goodName a = true := h a (by simp)
    cases as with
    | nil => exact goodName_ne_empty ha
    | cons b bs =>
      rw [joinSegs_cons_cons]
      intro he
      have : (a ++ ("/" ++ joinSegs (b :: bs))).data = [] := by
        rw [String.append_assoc] at he
        simp [he]
      rw [String.data_append] at this
      have hae : a.data = [] := by
        cases hd : a.data with
        | nil => rfl
        | cons c cs => rw [hd] at this; simp at this
      exact goodName_ne_empty ha (string_ext (b := "") (by simp [hae]))

theorem pathJoin_joinSegs {anc : List String} {n : String}
    (hanc : ∀ s ∈ anc, goodName s = true) (hn : goodName n = true) :
    pathJoin (joinSegs anc) n = joinSegs (anc ++ [n]) := by
  cases hc : anc with
  | nil => simpa [joinSegs] using pathJoin_empty hn
  | cons a as =>
    rw [← hc]
    rw [joinSegs_append_single n (by rw [hc]; simp)]
    exact pathJoin_of_noLead (joinSegs_noLead hanc)
      (joinSegs_ne_empty hanc (by rw [hc]; simp))

theorem emitted_id (p : String) (t : RTree) : (emitted p t).id = t.id := by
  cases t <;> rfl

theorem emitted_path (p : String) (t : RTree) : (emitted p t).path = p := by
  cases t <;> rfl

theorem emitted_name (p : String) (t : RTree) : (emitted p t).name = t.name := by
  cases t <;> rfl

theorem fetch_all_items_nil (p : String) : fetch_all_items p [] = [] := by
  simp [fetch_all_items]

theorem fetch_all_items_cons (p : String) (t : RTree) (rest : List RTree) :
    fetch_all_items p (t :: rest) = emitChild p t ++ fetch_all_items p rest := by
  simp [fetch_all_items]

theorem emitChild_file (p i n : String) (sz : Nat) (m d : Option String) :
    emitChild p (.file i n sz m d)
      = [Item.file n (pathJoin p n) m (size_mb sz) d i] := by
  simp [emitChild]

theorem emitChild_folder (p i n : String) (sv uv : List RTree) :
    emitChild p (.folder i n sv uv)
      = Item.folder n (pathJoin p n) i :: fetch_all_items (pathJoin p n) sv := by
  simp [emitChild]

theorem goodTree_of_mem {ts : List RTree} {t : RTree}
    (h : goodForest ts = true) (hm : t ∈ ts) : goodTree t = true := by
  induction ts with
  | nil => simp at hm
  | cons a rest ih =>
    simp only [goodForest, Bool.and_eq_true] at h
    rcases List.mem_cons.mp hm with he | hm2
    · subst he; exact h.1
    · exact ih h.2 hm2

theorem unpagedTree_of_mem {ts : List RTree} {t : RTree}
    (h : unpagedForest ts = true) (hm : t ∈ ts) : unpagedTree t = true := by
  induction ts with
  | nil => simp at hm
  | cons a rest ih =>
    simp only [unpagedForest, Bool.and_eq_true] at h
    rcases List.mem_cons.mp hm with he | hm2
    · subst he; exact h.1
    · exact ih h.2 hm2

theorem resolvableTree_of_mem {ts : List RTree} {t : RTree}
    (h : resolvableForest ts = true) (hm : t ∈ ts) : resolvableTree t = true := by
  induction ts with
  | nil => simp at hm
  | cons a rest ih =>
    simp only [resolvableForest, Bool.and_eq_true] at h
    rcases List.mem_cons.mp hm with he | hm2
    · subst he; exact h.1
    · exact ih h.2 hm2

theorem foldersOnlyTree_of_mem {ts : List RTree} {t : RTree}
    (h : foldersOnlyForest ts = true) (hm : t ∈ ts) : foldersOnlyTree t = true := by
  induction ts with
  | nil => simp at hm
  | cons a rest ih =>
    simp only [foldersOnlyForest, Bool.and_eq_true] at h
    rcases List.mem_cons.mp hm with he | hm2
    · subst he; exact h.1
    · exact ih h.2 hm2

theorem goodForest_append (l1 l2 : List RTree) :
    goodForest (l1 ++ l2) = (goodForest l1 && goodForest l2) := by
  induction l1 with
  | nil => simp [goodForest]
  | cons a rest ih => simp [goodForest, ih, Bool.and_assoc]

theorem resolvableForest_append (l1 l2 : List RTree) :
    resolvableForest (l1 ++ l2) = (resolvableForest l1 && resolvableForest l2) := by
  induction l1 with
  | nil => simp [resolvableForest]
  | cons a rest ih => simp [resolvableForest, ih, Bool.and_assoc]

theorem walk_source (ts : List RTree) : ∀ (p : String) (it : Item),
    it ∈ fetch_all_items p ts → ∃ anc t, At ts anc t ∧ it = emitted it.path t := by
  match ts with
  | [] => intro p it hmem; rw [fetch_all_items_nil] at hmem; simp at hmem
  | t :: rest =>
    intro p it hmem
    rw [fetch_all_items_cons] at hmem
    rcases List.mem_append.mp hmem with hL | hR
    · cases t with
      | file i n sz m d =>
        rw [emitChild_file] at hL
        simp only [List.mem_singleton] at hL
        refine ⟨[], .file i n sz m d, At.here (by simp), ?_⟩
        subst hL; rfl
      | folder i n sv uv =>
        rw [emitChild_folder] at hL
        rcases List.mem_cons.mp hL with he | hsub
        · refine ⟨[], .folder i n sv uv, At.here (by simp), by subst he; rfl⟩
        · obtain ⟨anc, t2, hAt, heq⟩ := walk_source sv (pathJoin p n) it hsub
          exact ⟨n :: anc, t2,
            At.deeper
              (show RTree.folder i n sv uv ∈ RTree.folder i n sv uv :: rest from
                List.mem_cons_self _ _)
              (hAt.mono (List.subset_append_left _ _)), heq⟩
    · obtain ⟨anc, t2, hAt, heq⟩ := walk_source rest p it hR
      exact ⟨anc, t2, hAt.mono (fun x hx => List.mem_cons_of_mem _ hx), heq⟩
termination_by sizeOf ts

theorem walk_path (ts : List RTree) : goodForest ts = true →
    ∀ (anc : List String), (∀ s ∈ anc, goodName s = true) →
    ∀ it ∈ fetch_all_items (joinSegs anc) ts,
    ∃ anc2 t, At ts anc2 t ∧ (∀ s ∈ anc2, goodName s = true) ∧
      goodName t.name = true ∧
      it = emitted (joinSegs (anc ++ anc2 ++ [t.name])) t := by
  match ts with
  | [] => intro _ anc _ it hmem; rw [fetch_all_items_nil] at hmem; simp at hmem
  | t :: rest =>
    intro hg anc hanc it hmem
    simp only [goodForest, Bool.and_eq_true] at hg
    rw [fetch_all_items_cons] at hmem
    rcases List.mem_append.mp hmem with hL | hR
    · cases t with
      | file i n sz m d =>
        have hn : goodName n = true := by simpa [goodTree] using hg.1
        rw [emitChild_file] at hL
        simp only [List.mem_singleton] at hL
        refine ⟨[], .file i n sz m d, At.here (by simp), by simp, hn, ?_⟩
        rw [hL]
        simp [emitted, RTree.name, pathJoin_joinSegs hanc hn]
      | folder i n sv uv =>
        have hgt : goodName n = true ∧ goodForest sv = true ∧ goodForest uv = true := by
          have h2 := hg.1
          simp only [goodTree, Bool.and_eq_true, and_assoc] at h2
          exact h2
        rw [emitChild_folder] at hL
        rcases List.mem_cons.mp hL with he | hsub
        · refine ⟨[], .folder i n sv uv, At.here (by simp), by simp, hgt.1, ?_⟩
          rw [he]
          simp [emitted, RTree.name, pathJoin_joinSegs hanc hgt.1]
        · rw [pathJoin_joinSegs hanc hgt.1] at hsub
          have hanc2 : ∀ s ∈ anc ++ [n], goodName s = true := by
            intro s hs
            rcases List.mem_append.mp hs with h1 | h2
            · exact hanc s h1
            · simp at h2; subst h2; exact hgt.1
          obtain ⟨anc2, t2, hAt, hg2, hn2, heq⟩ :=
            walk_path sv hgt.2.1 (anc ++ [n]) hanc2 it hsub
          refine ⟨n :: anc2, t2,
            At.deeper
              (show RTree.folder i n sv uv ∈ RTree.folder i n sv uv :: rest from
                List.mem_cons_self _ _)
              (hAt.mono (List.subset_append_left _ _)), ?_, hn2, ?_⟩
          · intro s hs
            rcases List.mem_cons.mp hs with h1 | h2
            · subst h1; exact hgt.1
            · exact hg2 s h2
          · rw [heq]
            congr 2
            simp [List.append_assoc]
    · obtain ⟨anc2, t2, hAt, hg2, hn2, heq⟩ := walk_path rest hg.2 anc hanc it hR
      exact ⟨anc2, t2, hAt.mono (fun x hx => List.mem_cons_of_mem _ hx), hg2, hn2, heq⟩
termination_by sizeOf ts

theorem id_mem_walk_of_mem {ts : List RTree} {t : RTree} (h : t ∈ ts) (p : String) :
    t.id ∈ (fetch_all_items p ts).map Item.id := by
  induction ts with
  | nil => simp at h
  | cons a rest ih =>
    rw [fetch_all_items_cons]
    rcases List.mem_cons.mp h with he | hm
    · subst he
      cases t with
      | file i n sz m d => simp [emitChild_file, RTree.id, Item.id]
      | folder i n sv uv => simp [emitChild_folder, RTree.id, Item.id]
    · rw [List.map_append]
      exact List.mem_append_right _ (ih hm)

theorem subwalk_mem {i n : String} {sv uv : List RTree} {ts : List RTree}
    (h : RTree.folder i n sv uv ∈ ts) (p : String) :
    ∀ x ∈ fetch_all_items (pathJoin p n) sv, x ∈ fetch_all_items p ts := by
  induction ts with
  | nil => simp at h
  | cons a rest ih =>
    intro x hx
    rw [fetch_all_items_cons]
    rcases List.mem_cons.mp h with he | hm
    · apply List.mem_append_left
      rw [← he, emitChild_folder]
      exact List.mem_cons_of_mem _ hx
    · exact List.mem_append_right _ (ih hm x hx)

theorem at_id_mem {ts : List RTree} {anc : List String} {t : RTree} (h : At ts anc t) :
    ∀ p, unpagedForest ts = true → t.id ∈ (fetch_all_items p ts).map Item.id := by
  induction h with
  | here hm => intro p _; exact id_mem_walk_of_mem hm p
  | @deeper ts i n sv uv anc t hm hAt ih =>
    intro p hp
    have hTree : unpagedTree (RTree.folder i n sv uv) = true := unpagedTree_of_mem hp hm
    simp only [unpagedTree, Bool.and_eq_true, List.isEmpty_iff] at hTree
    have huv : uv = [] := hTree.1
    have hin := ih (pathJoin p n) (by rw [huv, List.append_nil]; exact hTree.2)
    rw [huv, List.append_nil] at hin
    obtain ⟨x, hx, hxid⟩ := List.mem_map.mp hin
    exact List.mem_map.mpr ⟨x, subwalk_mem hm p x hx, hxid⟩

theorem RTree.strongInd {motive : RTree → Prop}
    (hfile : ∀ i n sz m d, motive (.file i n sz m d))
    (hfolder : ∀ i n sv uv, (∀ t ∈ sv, motive t) → (∀ t ∈ uv, motive t) →
      motive (.folder i n sv uv)) : ∀ t, motive t := by
  intro t
  match t with
  | .file i n sz m d => exact hfile i n sz m d
  | .folder i n sv uv =>
    exact hfolder i n sv uv
      (fun t2 ht2 => RTree.strongInd hfile hfolder t2)
      (fun t2 ht2 => RTree.strongInd hfile hfolder t2)
termination_by t => sizeOf t
decreasing_by
  · have := List.sizeOf_lt_of_mem ht2; simp; omega
  · have := List.sizeOf_lt_of_mem ht2; simp; omega

theorem goodName_of_slashFree {s : String} (h : slashFree s = true) :
    goodName s = true := by
  unfold slashFree at h
  unfold goodName
  rw [Bool.and_eq_true] at h ⊢
  refine ⟨h.1, ?_⟩
  have h2 : ¬ '/' ∈ s.data := by simpa using h.2
  cases hd : s.data with
  | nil => simp
  | cons c cs =>
    rw [hd] at h2
    simp only [List.mem_cons, not_or] at h2
    simp only [List.head?_cons, bne_iff_ne, ne_eq, Option.some.injEq]
    exact fun he => h2.1 he.symm

theorem goodForest_of_forall {ts : List RTree} (h : ∀ t ∈ ts, goodTree t = true) :
    goodForest ts = true := by
  induction ts with
  | nil => simp [goodForest]
  | cons a rest ih =>
    simp only [goodForest, Bool.and_eq_true]
    exact ⟨h a (by simp), ih (fun t ht => h t (List.mem_cons_of_mem _ ht))⟩

theorem goodTree_of_resolvable : ∀ t, resolvableTree t = true → goodTree t = true := by
  intro t
  induction t using RTree.strongInd with
  | hfile i n sz m d =>
    intro h
    simpa [goodTree] using goodName_of_slashFree (by simpa [resolvableTree] using h)
  | hfolder i n sv uv ihsv ihuv =>
    intro h
    have hc : slashFree n = true ∧ resolvableForest sv = true ∧
        resolvableForest uv = true := by
      simp only [resolvableTree, Bool.and_eq_true, and_assoc] at h
      exact ⟨h.1, h.2.2⟩
    simp only [goodTree, Bool.and_eq_true]
    refine ⟨⟨goodName_of_slashFree hc.1, ?_⟩, ?_⟩
    · exact goodForest_of_forall
        (fun t2 ht2 => ihsv t2 ht2 (resolvableTree_of_mem hc.2.1 ht2))
    · exact goodForest_of_forall
        (fun t2 ht2 => ihuv t2 ht2 (resolvableTree_of_mem hc.2.2 ht2))

theorem goodForest_of_resolvable {ts : List RTree} (h : resolvableForest ts = true) :
    goodForest ts = true :=
  goodForest_of_forall (fun t ht => goodTree_of_resolvable t (resolvableTree_of_mem h ht))

theorem mk_data (s : String) : String.mk s.data = s := by cases s; rfl

theorem nodupNames_cons {a : RTree} {rest : List RTree}
    (h : nodupNames (a :: rest) = true) :
    a.name ∉ rest.map RTree.name ∧ nodupNames rest = true := by
  unfold nodupNames at *
  simp only [decide_eq_true_eq] at h
  rw [List.map_cons, List.nodup_cons] at h
  exact ⟨h.1, by simp only [decide_eq_true_eq]; exact h.2⟩

theorem find_name_nodup {ts : List RTree} {t : RTree} (hnd : nodupNames ts = true)
    (hm : t ∈ ts) : ts.find? (fun x => x.name == t.name) = some t := by
  induction ts with
  | nil => simp at hm
  | cons a rest ih =>
    obtain ⟨hna, hnd2⟩ := nodupNames_cons hnd
    rcases List.mem_cons.mp hm with he | hmem
    · subst he
      rw [List.find?_cons_of_pos]
      simp
    · have hne : a.name ≠ t.name := by
        intro he
        exact hna (by rw [he]; exact List.mem_map_of_mem _ hmem)
      rw [List.find?_cons_of_neg]
      · exact ih hnd2 hmem
      · simp [hne]

theorem slashFree_name_of_resolvable {t : RTree} (h : resolvableTree t = true) :
    slashFree t.name = true := by
  cases t with
  | file i n sz m d => simpa [resolvableTree, RTree.name] using h
  | folder i n sv uv =>
    simp only [resolvableTree, Bool.and_eq_true] at h
    exact h.1.1.1

theorem resolvable_parts {i n : String} {sv uv : List RTree}
    (h : resolvableTree (.folder i n sv uv) = true) :
    slashFree n = true ∧ nodupNames (sv ++ uv) = true ∧
      resolvableForest (sv ++ uv) = true := by
  simp only [resolvableTree, Bool.and_eq_true] at h
  refine ⟨h.1.1.1, h.1.1.2, ?_⟩
  rw [resolvableForest_append, Bool.and_eq_true]
  exact ⟨h.1.2, h.2⟩

theorem resolveSegs_single (ts : List RTree) (seg : String) :
    resolveSegs ts [seg] = ts.find? (fun x => x.name == seg) := by
  simp [resolveSegs]

theorem resolveSegs_cons_cons (ts : List RTree) (seg s2 : String) (rest : List String) :
    resolveSegs ts (seg :: s2 :: rest) =
      match ts.find? (fun x => x.name == seg) with
      | some (.folder _ _ sv uv) => resolveSegs (sv ++ uv) (s2 :: rest)
      | _ => none := by
  simp [resolveSegs]

theorem resolve_at {ts : List RTree} {anc : List String} {t : RTree} (h : At ts anc t) :
    resolvableForest ts = true → nodupNames ts = true →
    resolveSegs ts (anc ++ [t.name]) = some t := by
  induction h with
  | here hm =>
    intro _ hnd
    rw [List.nil_append, resolveSegs_single]
    exact find_name_nodup hnd hm
  | @deeper ts i n sv uv anc t hm hAt ih =>
    intro hres hnd
    have hparts := resolvable_parts (resolvableTree_of_mem hres hm)
    have hfind : ts.find? (fun x => x.name == n) = some (.folder i n sv uv) := by
      simpa [RTree.name] using find_name_nodup hnd hm
    cases anc with
    | nil =>
      simp only [List.nil_append, List.cons_append]
      rw [resolveSegs_cons_cons, hfind]
      exact ih hparts.2.2 hparts.2.1
    | cons a as =>
      simp only [List.cons_append]
      rw [resolveSegs_cons_cons, hfind]
      have := ih hparts.2.2 hparts.2.1
      simpa [List.cons_append] using this

theorem at_strict {ts : List RTree} {anc : List String} {t : RTree} (h : At ts anc t) :
    resolvableForest ts = true →
    (∀ s ∈ anc, slashFree s = true) ∧ slashFree t.name = true := by
  induction h with
  | here hm =>
    intro hres
    exact ⟨by simp, slashFree_name_of_resolvable (resolvableTree_of_mem hres hm)⟩
  | @deeper ts i n sv uv anc t hm hAt ih =>
    intro hres
    have hparts := resolvable_parts (resolvableTree_of_mem hres hm)
    obtain ⟨ha, hb⟩ := ih hparts.2.2
    refine ⟨?_, hb⟩
    intro s hs
    rcases List.mem_cons.mp hs with he | h2
    · subst he; exact hparts.1
    · exact ha s h2

theorem not_mem_of_slashFree {s : String} (h : slashFree s = true) :
    '/' ∉ s.data := by
  unfold slashFree at h
  rw [Bool.and_eq_true] at h
  simpa using h.2

theorem splitSlashes_cons (c : Char) (cs : List Char) :
    splitSlashes (c :: cs) =
      if c = '/' then [] :: splitSlashes cs
      else
        match splitSlashes cs with
        | [] => [[c]]
        | s :: rest => (c :: s) :: rest := rfl

theorem splitSlashes_noslash {cs : List Char} (h : '/' ∉ cs) :
    splitSlashes cs = [cs] := by
  induction cs with
  | nil => rfl
  | cons c cs ih =>
    have hc : c ≠ '/' := fun he => h (by simp [he])
    have hcs : '/' ∉ cs := fun hm => h (List.mem_cons_of_mem _ hm)
    rw [splitSlashes_cons, if_neg hc, ih hcs]

theorem splitSlashes_append {cs : List Char} (rest : List Char) (h : '/' ∉ cs) :
    splitSlashes (cs ++ '/' :: rest) = cs :: splitSlashes rest := by
  induction cs with
  | nil => simp [splitSlashes_cons]
  | cons c cs ih =>
    have hc : c ≠ '/' := fun he => h (by simp [he])
    have hcs : '/' ∉ cs := fun hm => h (List.mem_cons_of_mem _ hm)
    rw [List.cons_append, splitSlashes_cons, if_neg hc, ih hcs]

theorem splitPath_joinSegs : ∀ (segs : List String), segs ≠ [] →
    (∀ s ∈ segs, slashFree s = true) → splitPath (joinSegs segs) = segs := by
  intro segs
  induction segs with
  | nil => intro h; exact absurd rfl h
  | cons a as ih =>
    intro _ hall
    have ha : '/' ∉ a.data := not_mem_of_slashFree (hall a (by simp))
    cases as with
    | nil =>
      unfold splitPath
      rw [show joinSegs [a] = a from rfl, splitSlashes_noslash ha]
      simp [mk_data]
    | cons b bs =>
      unfold splitPath
      rw [joinSegs_cons_cons]
      rw [show (a ++ "/" ++ joinSegs (b :: bs)).data
          = a.data ++ '/' :: (joinSegs (b :: bs)).data from by
        simp [String.data_append]]
      rw [splitSlashes_append _ ha]
      rw [List.map_cons, mk_data]
      have ih2 := ih (by simp) (fun s hs => hall s (List.mem_cons_of_mem _ hs))
      unfold splitPath at ih2
      rw [ih2]

mutual
/-- Follows the specification (sections 3 and 8): the Listing of a folder
tree with no files has exactly one Folder entry per folder node, each parent
entry immediately preceding the block of entries of its descendants, sibling
blocks in the order the remote returns them, and each entry path extending
the parent path by a slash and the name.  This is the specification side of
the refinement proved for claim C3; it lists the full child set of every
folder, first page first. -/
def specListingTree (p : String) (t : RTree) : List Item :=
  match t with
  | .file _ _ _ _ _ => []
  | .folder i n sv uv =>
      Item.folder n (pathJoin p n) i ::
        (specListingForest (pathJoin p n) sv ++ specListingForest (pathJoin p n) uv)

/-- Specification-side listing of a sibling forest, in remote order. -/
def specListingForest (p : String) (ts : List RTree) : List Item :=
  match ts with
  | [] => []
  | t :: rest => specListingTree p t ++ specListingForest p rest
end

theorem specListingForest_nil (p : String) : specListingForest p [] = [] := by
  simp [specListingForest]

theorem specListingForest_cons (p : String) (t : RTree) (rest : List RTree) :
    specListingForest p (t :: rest) = specListingTree p t ++ specListingForest p rest := by
  simp [specListingForest]

theorem specListingTree_folder (p i n : String) (sv uv : List RTree) :
    specListingTree p (.folder i n sv uv)
      = Item.folder n (pathJoin p n) i ::
          (specListingForest (pathJoin p n) sv ++ specListingForest (pathJoin p n) uv) := by
  simp [specListingTree]

theorem fetch_eq_specListing (ts : List RTree) : ∀ (p : String),
    foldersOnlyForest ts = true → unpagedForest ts = true →
    fetch_all_items p ts = specListingForest p ts := by
  match ts with
  | [] =>
    intro p _ _
    rw [fetch_all_items_nil, specListingForest_nil]
  | t :: rest =>
    intro p hf hu
    simp only [foldersOnlyForest, Bool.and_eq_true] at hf
    simp only [unpagedForest, Bool.and_eq_true] at hu
    cases t with
    | file i n sz m d =>
      exact absurd hf.1 (by simp [foldersOnlyTree])
    | folder i n sv uv =>
      have hft : foldersOnlyForest sv = true ∧ foldersOnlyForest uv = true := by
        have h2 := hf.1
        simp only [foldersOnlyTree, Bool.and_eq_true] at h2
        exact h2
      have hut : uv = [] ∧ unpagedForest sv = true := by
        have h2 := hu.1
        simp only [unpagedTree, Bool.and_eq_true, List.isEmpty_iff] at h2
        exact h2
      rw [fetch_all_items_cons, emitChild_folder, specListingForest_cons,
        specListingTree_folder, hut.1, specListingForest_nil, List.append_nil]
      rw [fetch_eq_specListing sv (pathJoin p n) hft.1 hut.2,
        fetch_eq_specListing rest p hf.2 hu.2]
termination_by sizeOf ts

/-- Example tree shared by several witnesses: a drive whose first page holds
one folder A with a single child folder B. -/
def exForest : List RTree :=
  [RTree.folder "idA" "A" [RTree.folder "idB" "B" [] []] []]

/-- Example drive over `exForest`, served without pagination. -/
def exDrive : Drive := ⟨exForest, []⟩

/-- Paginated example folder for C2: child a on the first page, child b on a
later page. -/
def pagedFolderEx : RTree :=
  RTree.folder "fid" "F" [RTree.file "fa" "a" 0 none none]
    [RTree.file "fb" "b" 0 none none]

/-- C1, counterexample: the claim says the size field of an emitted file
item equals the remote size field unchanged, with no unit conversion.  The
code computes `round(size / (1024 * 1024), 2)`: on a remote file of 1048576
bytes the walker emits size field 1 (megabytes), which differs from the
remote value 1048576, so the claim as stated is false. -/
theorem size_field_unit_conversion_counterexample :
    fetch_all_items "" [RTree.file "f1" "a" 1048576 none none]
      = [Item.file "a" "a" none 1 none "f1"]
    ∧ ((1 : ℚ) ≠ ((1048576 : Nat) : ℚ)) := by
  constructor
  · rw [fetch_all_items_cons, emitChild_file, fetch_all_items_nil, List.append_nil]
    have h1 : pathJoin "" "a" = "a" := by decide
    have h2 : size_mb 1048576 = 1 := by norm_num [size_mb, roundHalfEven]
    rw [h1, h2]
  · norm_num

/-- C1, amended: every file item emitted by the tree walker carries, as its
size field, the remote size of a file node occurring in the tree with the
same id, name, mime type and download URL, converted to megabytes and
rounded to two decimals (`size_mb`); the raw byte count is not emitted. -/
theorem emitted_file_size_is_rounded_mb (ts : List RTree) (p : String)
    (name pth : String) (mime : Option String) (q : ℚ) (du : Option String)
    (i : String)
    (hmem : Item.file name pth mime q du i ∈ fetch_all_items p ts) :
    ∃ anc sz, At ts anc (RTree.file i name sz mime du) ∧ q = size_mb sz := by
  obtain ⟨anc, t, hAt, heq⟩ := walk_source ts p _ hmem
  cases t with
  | folder i2 n2 sv uv => simp [emitted] at heq
  | file i2 n2 sz m2 d2 =>
    rw [show (Item.file name pth mime q du i).path = pth from rfl] at heq
    simp only [emitted, Item.file.injEq] at heq
    obtain ⟨h1, h2, h3, h4, h5, h6⟩ := heq
    subst h1; subst h3; subst h5; subst h6
    exact ⟨anc, sz, hAt, h4⟩

/-- Witness for the amended C1 theorem at a concrete input. -/
theorem emitted_file_size_is_rounded_mb_witness :
    (Item.file "a" (pathJoin "" "a") none (size_mb 5) none "f1"
        ∈ fetch_all_items "" [RTree.file "f1" "a" 5 none none])
    ∧ ∃ anc sz, At [RTree.file "f1" "a" 5 none none] anc
        (RTree.file "f1" "a" sz none none) ∧ size_mb 5 = size_mb sz := by
  have hm : Item.file "a" (pathJoin "" "a") none (size_mb 5) none "f1"
      ∈ fetch_all_items "" [RTree.file "f1" "a" 5 none none] := by
    rw [fetch_all_items_cons, emitChild_file, fetch_all_items_nil, List.append_nil]
    exact List.mem_singleton.mpr rfl
  exact ⟨hm, emitted_file_size_is_rounded_mb _ _ _ _ _ _ _ _ hm⟩

/-- C2, counterexample: the claim says the walker follows continuation
tokens until the full child set of each visited folder is retrieved, so the
listing contains every child of every visited folder.  The code reads only
the `value` array of the single `/children` response: with folder F serving
child a on the first page and child b on a later page, the walker emits F
and a but never b, a child of the visited folder F. -/
theorem pagination_not_followed_counterexample :
    (fetch_all_items "" [pagedFolderEx]).map Item.id = ["fid", "fa"]
    ∧ pagedFolderEx.childSet.map RTree.id = ["fa", "fb"]
    ∧ "fb" ∉ (fetch_all_items "" [pagedFolderEx]).map Item.id := by
  refine ⟨by decide, by decide, by decide⟩

/-- C2, amended: the walker issues a single children request per folder and
processes only the first page of each response; when the remote serves every
child list in one page, the listing is complete, containing an entry for
every node of the tree, in particular every child of every visited folder. -/
theorem unpaged_walk_complete (d : Drive) (h : unpagedDrive d = true) :
    ∀ anc t, At d.children anc t →
      t.id ∈ (fetch_all_items "" d.served).map Item.id := by
  intro anc t hAt
  unfold unpagedDrive at h
  rw [Bool.and_eq_true, List.isEmpty_iff] at h
  have hch : d.children = d.served := by
    unfold Drive.children
    rw [h.1, List.append_nil]
  rw [hch] at hAt
  exact at_id_mem hAt "" h.2

/-- Witness for the amended C2 theorem at a concrete input. -/
theorem unpaged_walk_complete_witness :
    unpagedDrive exDrive = true
    ∧ At exDrive.children ["A"] (RTree.folder "idB" "B" [] [])
    ∧ "idB" ∈ (fetch_all_items "" exDrive.served).map Item.id := by
  have hmem : RTree.folder "idA" "A" [RTree.folder "idB" "B" [] []] []
      ∈ exDrive.children := by
    simp [exDrive, exForest, Drive.children]
  have hAt : At exDrive.children ["A"] (RTree.folder "idB" "B" [] []) :=
    At.deeper hmem (At.here (by simp))
  exact ⟨by decide, hAt, unpaged_walk_complete exDrive (by decide) ["A"] _ hAt⟩

/-- C3: over a folder tree containing no files and served without
pagination, the walker listing equals the specification listing, which has
exactly one Folder entry per folder node, each parent entry strictly before
the entries of its descendants and siblings in remote order; moreover a
folder with zero children contributes exactly its own entry, the recursive
call into it returning nothing. -/
theorem folders_only_listing_exact (ts : List RTree) (p : String)
    (hf : foldersOnlyForest ts = true) (hu : unpagedForest ts = true) :
    fetch_all_items p ts = specListingForest p ts
    ∧ ∀ i n, emitChild p (RTree.folder i n [] []) = [Item.folder n (pathJoin p n) i] := by
  refine ⟨fetch_eq_specListing ts p hf hu, ?_⟩
  intro i n
  rw [emitChild_folder, fetch_all_items_nil]

/-- Witness for the C3 theorem at a concrete input. -/
theorem folders_only_listing_exact_witness :
    (foldersOnlyForest exForest = true ∧ unpagedForest exForest = true)
    ∧ (fetch_all_items "" exForest = specListingForest "" exForest
       ∧ ∀ i n, emitChild "" (RTree.folder i n [] [])
           = [Item.folder n (pathJoin "" n) i]) :=
  ⟨⟨by decide, by decide⟩, folders_only_listing_exact exForest "" (by decide) (by decide)⟩

/-- C4: when every remote name is nonempty and does not begin with a slash,
every item emitted by a drive-root walk has as its path the slash join of
its ancestor names followed by its own name; equivalently the path equals
the join of the parent path, a slash and the name as the source computes it
(stripping a leading slash at the top level), and no emitted path begins
with a slash. -/
theorem emitted_path_slash_join (ts : List RTree) (hg : goodForest ts = true) :
    ∀ it ∈ fetch_all_items "" ts,
      ∃ anc t, At ts anc t
        ∧ it = emitted (joinSegs (anc ++ [t.name])) t
        ∧ it.path = pathJoin (joinSegs anc) t.name
        ∧ noLeadSlash it.path = true := by
  intro it hmem
  obtain ⟨anc, t, hAt, hganc, hgn, heq⟩ := walk_path ts hg [] (by simp) it hmem
  have hgall : ∀ s ∈ anc ++ [t.name], goodName s = true := by
    intro s hs
    rcases List.mem_append.mp hs with h1 | h2
    · exact hganc s h1
    · simp at h2; subst h2; exact hgn
  refine ⟨anc, t, hAt, ?_, ?_, ?_⟩
  · simpa using heq
  · rw [heq, emitted_path, pathJoin_joinSegs hganc hgn]
    simp
  · rw [heq, emitted_path]
    simpa using joinSegs_noLead hgall

/-- Witness for the C4 theorem at a concrete input. -/
theorem emitted_path_slash_join_witness :
    goodForest exForest = true
    ∧ (Item.folder "B" "A/B" "idB" ∈ fetch_all_items "" exForest)
    ∧ (∃ anc t, At exForest anc t
        ∧ Item.folder "B" "A/B" "idB" = emitted (joinSegs (anc ++ [t.name])) t
        ∧ (Item.folder "B" "A/B" "idB").path = pathJoin (joinSegs anc) t.name
        ∧ noLeadSlash (Item.folder "B" "A/B" "idB").path = true) := by
  have hm : Item.folder "B" "A/B" "idB" ∈ fetch_all_items "" exForest := by decide
  exact ⟨by decide, hm, emitted_path_slash_join exForest (by decide) _ hm⟩

/-- C5: round trip of traversal and resolution: over a remote tree whose
names are slash free and unique among siblings, resolving the emitted path
of any item of a drive-root walk through the path-addressing endpoint
returns an item with the same id. -/
theorem roundtrip_resolve_emitted_path (d : Drive)
    (hres : resolvableForest d.children = true)
    (hnd : nodupNames d.children = true) :
    ∀ it ∈ fetch_all_items "" d.served,
      ∃ t, get_item_by_path (pathEpOf d) it.path = .ok t ∧ t.id = it.id := by
  intro it hmem
  have hg : goodForest d.served = true := by
    have h2 : resolvableForest d.served = true := by
      have h3 := hres
      unfold Drive.children at h3
      rw [resolvableForest_append, Bool.and_eq_true] at h3
      exact h3.1
    exact goodForest_of_resolvable h2
  obtain ⟨anc, t, hAt, hganc, hgn, heq⟩ := walk_path d.served hg [] (by simp) it hmem
  have hAt2 : At d.children anc t := by
    refine hAt.mono ?_
    unfold Drive.children
    exact List.subset_append_left _ _
  obtain ⟨hancS, hnameS⟩ := at_strict hAt2 hres
  have hresolve := resolve_at hAt2 hres hnd
  have hpath : it.path = joinSegs (anc ++ [t.name]) := by
    rw [heq, emitted_path]
    simp
  have hallS : ∀ s ∈ anc ++ [t.name], slashFree s = true := by
    intro s hs
    rcases List.mem_append.mp hs with h1 | h2
    · exact hancS s h1
    · simp at h2; subst h2; exact hnameS
  have hallG : ∀ s ∈ anc ++ [t.name], goodName s = true :=
    fun s hs => goodName_of_slashFree (hallS s hs)
  refine ⟨t, ?_, by rw [heq, emitted_id]⟩
  unfold get_item_by_path pathEpOf
  rw [hpath, lstripSlash_noop (joinSegs_noLead hallG)]
  rw [splitPath_joinSegs (anc ++ [t.name]) (by simp) hallS]
  rw [hresolve]

/-- Witness for the C5 theorem at a concrete input. -/
theorem roundtrip_resolve_emitted_path_witness :
    (resolvableForest exDrive.children = true
      ∧ nodupNames exDrive.children = true
      ∧ Item.folder "B" "A/B" "idB" ∈ fetch_all_items "" exDrive.served)
    ∧ ∃ t, get_item_by_path (pathEpOf exDrive) (Item.folder "B" "A/B" "idB").path
        = .ok t ∧ t.id = (Item.folder "B" "A/B" "idB").id := by
  have hm : Item.folder "B" "A/B" "idB" ∈ fetch_all_items "" exDrive.served := by
    decide
  exact ⟨⟨by decide, by decide, hm⟩,
    roundtrip_resolve_emitted_path exDrive (by decide) (by decide) _ hm⟩

/-- C6: for a /list-files request with a nonempty folder parameter whose
resolution succeeds: a resolved item carrying the file facet produces a
BadRequest (400) and never a listing; a resolved folder produces the
recursive listing rooted at that folder, with the supplied folder string as
base path, paired with its count. -/
theorem list_files_type_check (d : Drive) (ep : String → Except Nat RTree)
    (f : String) (t : RTree) (hf : f ≠ "")
    (hres : get_item_by_path ep f = .ok t) :
    (t.isFile = true → list_files d ep (some f) = .error 400)
    ∧ (t.isFile = false →
        list_files d ep (some f)
          = .ok ((fetch_all_items f t.page1).length, fetch_all_items f t.page1)) := by
  have hstep : list_files d ep (some f)
      = (match get_item_by_path ep f with
         | .error _ => .error 404
         | .ok (.file _ _ _ _ _) => .error 400
         | .ok (.folder _ _ sv _) =>
           .ok ((fetch_all_items f sv).length, fetch_all_items f sv)) := by
    unfold list_files
    simp [hf]
  constructor
  · intro hT
    cases t with
    | folder i n sv uv => simp [RTree.isFile] at hT
    | file i n sz m du => rw [hstep, hres]
  · intro hT
    cases t with
    | file i n sz m du => simp [RTree.isFile] at hT
    | folder i n sv uv => rw [hstep, hres]; rfl

/-- Resolved items and endpoints for the C6 witness. -/
def c6File : RTree := RTree.file "fi" "x.txt" 0 none none

def c6Folder : RTree := RTree.folder "fo" "A" [] []

def c6EpFile : String → Except Nat RTree := fun _ => .ok c6File

def c6EpFolder : String → Except Nat RTree := fun _ => .ok c6Folder

/-- Witness for the C6 theorem: both the file branch and the folder branch
at concrete inputs. -/
theorem list_files_type_check_witness :
    (("x.txt" : String) ≠ "" ∧ get_item_by_path c6EpFile "x.txt" = .ok c6File
      ∧ c6File.isFile = true
      ∧ list_files exDrive c6EpFile (some "x.txt") = .error 400)
    ∧ (("A" : String) ≠ "" ∧ get_item_by_path c6EpFolder "A" = .ok c6Folder
      ∧ c6Folder.isFile = false
      ∧ list_files exDrive c6EpFolder (some "A")
          = .ok ((fetch_all_items "A" c6Folder.page1).length,
              fetch_all_items "A" c6Folder.page1)) := by
  refine ⟨⟨by decide, rfl, rfl, ?_⟩, ⟨by decide, rfl, rfl, ?_⟩⟩
  · exact (list_files_type_check exDrive c6EpFile "x.txt" c6File (by decide) rfl).1 rfl
  · exact (list_files_type_check exDrive c6EpFolder "A" c6Folder (by decide) rfl).2 rfl

/-- C7: for a /download request whose path resolution succeeds: an item
carrying a download URL is answered directly, independently of the by-id
endpoint; an item without one triggers exactly one by-id fetch, at the
resolved item id, whose download URL is answered if present, and otherwise
the request fails 404 with no further retry; in every case the handler
depends on the by-id endpoint only through its value at the resolved id. -/
theorem download_fallback_once (ep idEp idEp2 : String → Except Nat RTree)
    (fp : String) (item : RTree)
    (hres : get_item_by_path ep fp = .ok item) :
    (∀ u, item.durl = some u → download ep idEp fp = .ok (fp, u))
    ∧ (item.durl = none → item.id ≠ "" → ∀ item2, idEp item.id = .ok item2 →
        ((∀ u, item2.durl = some u → download ep idEp fp = .ok (fp, u))
         ∧ (item2.durl = none → download ep idEp fp = .error 404)))
    ∧ (idEp item.id = idEp2 item.id → download ep idEp fp = download ep idEp2 fp) := by
  have hstep : ∀ (ie : String → Except Nat RTree), download ep ie fp
      = (match item.durl with
         | some u => .ok (fp, u)
         | none =>
           if item.id = "" then .error 404
           else
             match ie item.id with
             | .error s => .error s
             | .ok item2 =>
               match item2.durl with
               | some u => .ok (fp, u)
               | none => .error 404) := by
    intro ie
    unfold download
    rw [hres]
  refine ⟨?_, ?_, ?_⟩
  · intro u hu
    rw [hstep idEp]
    simp only [hu]
  · intro hn hid item2 h2
    constructor
    · intro u hu
      rw [hstep idEp, hn, if_neg hid, h2]
      simp only [hu]
    · intro hu
      rw [hstep idEp, hn, if_neg hid, h2]
      simp only [hu]
  · intro hagree
    rw [hstep idEp, hstep idEp2]
    cases hd : item.durl with
    | some u => simp only [hd]
    | none =>
      simp only [hd]
      by_cases hid : item.id = ""
      · simp [hid]
      · simp only [if_neg hid, hagree]

/-- Items and endpoints for the C7 witness: the by-path view lacks the
download URL, the by-id view has one. -/
def c7NoUrl : RTree := RTree.file "fi" "x" 0 none none

def c7WithUrl : RTree := RTree.file "fi" "x" 0 none (some "URL")

def c7PathEp : String → Except Nat RTree := fun _ => .ok c7NoUrl

def c7IdEp : String → Except Nat RTree := fun _ => .ok c7WithUrl

/-- Witness for the C7 theorem: the fallback succeeds through the single
by-id refetch at a concrete input. -/
theorem download_fallback_once_witness :
    (get_item_by_path c7PathEp "x" = .ok c7NoUrl
      ∧ c7NoUrl.durl = none ∧ c7NoUrl.id ≠ ""
      ∧ c7IdEp c7NoUrl.id = .ok c7WithUrl ∧ c7WithUrl.durl = some "URL")
    ∧ download c7PathEp c7IdEp "x" = .ok ("x", "URL") := by
  refine ⟨⟨rfl, rfl, by decide, rfl, rfl⟩, ?_⟩
  exact ((download_fallback_once c7PathEp c7IdEp c7IdEp "x" c7NoUrl rfl).2.1
    rfl (by decide) c7WithUrl rfl).1 "URL" rfl

/-- Concrete remote views for C8: a search hit for metadata.json, a by-id
view carrying a download URL, and content that does not parse as JSON. -/
def c8Hit : SearchHit :=
  { id := some "i", name := some "metadata.json", parentPath := some "/drive/root:",
    folder := false, downloadUrl := none }

def c8FileWithUrl : RTree := RTree.file "i" "metadata.json" 3 none (some "u")

def c8IdEp : String → Except Nat RTree := fun _ => .ok c8FileWithUrl

def c8ContentEp : String → Except Unit (Option Json) := fun _ => .ok none

def c8PathEp : String → Except Nat RTree := fun _ => .error 404

def c8PathEpOk : String → Except Nat RTree := fun _ => .ok c8FileWithUrl

/-- C8, counterexample: the claim says every /metadata request, with or
without file_path, whose downloaded content is not parseable fails with 400.
In the branch without file_path the code calls json.loads outside the
JSONDecodeError guard, so the parse failure falls into the generic handler:
with a search hit whose by-id fetch carries a download URL and content that
does not parse, the endpoint answers 500, not 400. -/
theorem metadata_unparseable_counterexample :
    metadata c8PathEp c8IdEp (.ok [c8Hit]) c8ContentEp none = .error 500
    ∧ metadata c8PathEp c8IdEp (.ok [c8Hit]) c8ContentEp none ≠ .error 400 := by
  constructor
  · rfl
  · intro h
    rw [show metadata c8PathEp c8IdEp (.ok [c8Hit]) c8ContentEp none
        = .error 500 from rfl] at h
    exact absurd h (by simp)

theorem metadata_some_step (ep idEp : String → Except Nat RTree)
    (searchRes : Except Nat (List SearchHit))
    (contentEp : String → Except Unit (Option Json)) (fp : String) (hfp : fp ≠ "") :
    metadata ep idEp searchRes contentEp (some fp)
      = (match get_item_by_path ep fp with
         | .error s => .error s
         | .ok item =>
           match item.durl with
           | none => .error 404
           | some url =>
             match contentEp url with
             | .error _ => .error 500
             | .ok none => .error 400
             | .ok (some parsed) => .ok (fp, parsed)) := by
  unfold metadata
  simp only [Option.getD_some]
  rw [if_neg hfp]

theorem metadata_none_step (ep idEp : String → Except Nat RTree)
    (searchRes : Except Nat (List SearchHit))
    (contentEp : String → Except Unit (Option Json)) :
    metadata ep idEp searchRes contentEp none
      = (match searchRes with
         | .error s => .error s
         | .ok [] => .error 404
         | .ok (h1 :: _) =>
           match h1.id with
           | none => .error 500
           | some fid =>
             match idEp fid with
             | .error s => .error s
             | .ok item =>
               match item.durl with
               | none => .error 404
               | some url =>
                 match contentEp url with
                 | .error _ => .error 500
                 | .ok none => .error 500
                 | .ok (some parsed) => .ok (h1.parentPath.getD "", parsed)) := rfl

/-- C8, amended: a /metadata request with a file_path whose downloaded
content does not parse fails 400 (InvalidContent); the same parse failure on
a request without file_path falls into the generic exception handler and
fails 500. -/
theorem metadata_unparseable_status (ep idEp : String → Except Nat RTree)
    (searchRes : Except Nat (List SearchHit))
    (contentEp : String → Except Unit (Option Json)) :
    (∀ fp item u, fp ≠ "" → get_item_by_path ep fp = .ok item →
      item.durl = some u → contentEp u = .ok none →
      metadata ep idEp searchRes contentEp (some fp) = .error 400)
    ∧ (∀ h0 rest fid item u, searchRes = .ok (h0 :: rest) → h0.id = some fid →
        idEp fid = .ok item → item.durl = some u → contentEp u = .ok none →
        metadata ep idEp searchRes contentEp none = .error 500) := by
  constructor
  · intro fp item u hfp hres hd hc
    rw [metadata_some_step ep idEp searchRes contentEp fp hfp, hres]
    simp only [hd, hc]
  · intro h0 rest fid item u hs hid hfetch hd hc
    rw [metadata_none_step, hs]
    simp only [hid, hfetch, hd, hc]

/-- Witness for the amended C8 theorem: both branches at concrete inputs. -/
theorem metadata_unparseable_status_witness :
    (("p" : String) ≠ ""
      ∧ get_item_by_path c8PathEpOk "p" = .ok c8FileWithUrl
      ∧ c8FileWithUrl.durl = some "u"
      ∧ c8ContentEp "u" = .ok none
      ∧ c8Hit.id = some "i"
      ∧ c8IdEp "i" = .ok c8FileWithUrl)
    ∧ metadata c8PathEpOk c8IdEp (.ok [c8Hit]) c8ContentEp (some "p") = .error 400
    ∧ metadata c8PathEpOk c8IdEp (.ok [c8Hit]) c8ContentEp none = .error 500 := by
  refine ⟨⟨by decide, rfl, rfl, rfl, rfl, rfl⟩, ?_, ?_⟩
  · exact (metadata_unparseable_status c8PathEpOk c8IdEp (.ok [c8Hit]) c8ContentEp).1
      "p" c8FileWithUrl "u" (by decide) rfl rfl rfl
  · exact (metadata_unparseable_status c8PathEpOk c8IdEp (.ok [c8Hit]) c8ContentEp).2
      c8Hit [] "i" c8FileWithUrl "u" rfl rfl rfl rfl rfl

/-- C9: the /search handler returns a count equal to the length of its
results list, and a remote search with zero hits yields the successful
response of count zero and an empty list rather than an error. -/
theorem search_zero_hits_ok (searchEp : String → Except Nat (List SearchHit))
    (q : String) :
    (∀ n rs, search searchEp q = .ok (n, rs) → n = rs.length)
    ∧ (searchEp q = .ok [] → search searchEp q = .ok (0, [])) := by
  constructor
  · intro n rs h
    unfold search at h
    cases hq : searchEp q with
    | error s => rw [hq] at h; exact absurd h (by simp)
    | ok hits =>
      rw [hq] at h
      simp at h
      obtain ⟨h1, h2⟩ := h
      subst h1
      subst h2
      simp
  · intro h
    unfold search
    rw [h]
    rfl

/-- Remote search endpoint with zero hits, for the C9 witness. -/
def c9Ep : String → Except Nat (List SearchHit) := fun _ => .ok []

/-- Witness for the C9 theorem at a concrete input. -/
theorem search_zero_hits_ok_witness :
    c9Ep "metadata" = .ok []
    ∧ search c9Ep "metadata" = .ok (0, [])
    ∧ (0 : Nat) = ([] : List SearchResult).length := by
  refine ⟨rfl, (search_zero_hits_ok c9Ep "metadata").2 rfl, ?_⟩
  exact (search_zero_hits_ok c9Ep "metadata").1 0 []
    ((search_zero_hits_ok c9Ep "metadata").2 rfl)

/-- C10: any failure raised while resolving the folder parameter of a
/list-files request, whatever remote status it carries (403, 500, 503 and so
on), is translated into a 404 response; the original status never reaches
the client from the resolution step. -/
theorem list_files_resolution_error_to_404 (d : Drive)
    (ep : String → Except Nat RTree) (f : String) (s : Nat) (hf : f ≠ "")
    (h : get_item_by_path ep f = .error s) :
    list_files d ep (some f) = .error 404 := by
  unfold list_files
  simp only [Option.getD_some]
  rw [if_neg hf, h]

/-- Resolution endpoint failing with a server-side 503, for the C10
witness. -/
def c10Ep : String → Except Nat RTree := fun _ => .error 503

/-- Witness for the C10 theorem at a concrete input: a 503 from resolution
surfaces as 404. -/
theorem list_files_resolution_error_to_404_witness :
    (("A" : String) ≠ "" ∧ get_item_by_path c10Ep "A" = .error 503)
    ∧ list_files exDrive c10Ep (some "A") = .error 404 :=
  ⟨⟨by decide, rfl⟩,
    list_files_resolution_error_to_404 exDrive c10Ep "A" 503 (by decide) rfl⟩

end DataLake
